import Mathlib

/-!
Verification of the darkroom segmentation dataset pipeline: the connected-component
point-cloud filter (`src/connected_components.py`) and the density-image rasterizer
with annotation overlay (`src/generate_density_image.py`).

Conventions of the embedding:
* machine floats are modelled by exact rationals `ℚ`;
* `numpy` distance tests `‖p − o‖ < r` are modelled by the equivalent squared form
  `‖p − o‖² < r²` so that everything stays inside `ℚ` (all radii in scope are
  nonnegative, where the two forms agree);
* external library calls (`open3d` KD-tree queries, `open3d` DBSCAN labels,
  `scipy` connected-component labels) are modelled at their interface: the KD-tree
  query is a function parameter `nn`, the DBSCAN result is a label-list parameter,
  and the scipy labeling is reimplemented by class merging (its labels are used by
  the filter only through equality patterns, which are invariant under injective
  relabeling);
* `np.round` (round half to even) is `np_round`, and `numpy` uint16 accumulation
  is addition modulo 2^16.
-/

set_option maxRecDepth 4000

attribute [local semireducible] Rat.add Rat.mul Rat.sub Rat.inv

/-- `np.round` for a rational argument: round half to even, returning an integer. -/
def np_round (x : ℚ) : ℤ :=
  if x - ⌊x⌋ < 1/2 then ⌊x⌋
  else if 1/2 < x - ⌊x⌋ then ⌊x⌋ + 1
  else if ⌊x⌋ % 2 = 0 then ⌊x⌋ else ⌊x⌋ + 1

/-- Computable binary minimum on `ℚ` (Python's `min` on two floats). -/
def qmin (a b : ℚ) : ℚ := if a ≤ b then a else b

theorem qmin_eq_min (a b : ℚ) : qmin a b = min a b := by
  simp [qmin, min_def]

theorem np_round_nonneg {x : ℚ} (h : 0 ≤ x) : 0 ≤ np_round x := by
  have hf : (0:ℤ) ≤ ⌊x⌋ := Int.floor_nonneg.mpr h
  unfold np_round
  split
  · exact hf
  · split
    · omega
    · split
      · exact hf
      · omega

theorem np_round_le_int {x : ℚ} {m : ℤ} (h : x ≤ (m:ℚ)) : np_round x ≤ m := by
  have hfm : ⌊x⌋ ≤ m := by
    have := Int.floor_le_floor h
    simpa using this
  rcases lt_or_eq_of_le hfm with hlt | heq
  · unfold np_round
    split
    · omega
    · split
      · omega
      · split
        · omega
        · omega
  · have hfrac : x - (⌊x⌋:ℚ) ≤ 0 := by
      rw [heq]
      linarith
    unfold np_round
    rw [if_pos (by linarith : x - (⌊x⌋:ℚ) < 1/2)]
    omega

/-- A 3-D point with rational coordinates. -/
abbrev Point := ℚ × ℚ × ℚ

/-- Squared Euclidean distance between two points
(`np.linalg.norm(points - origin)` squared). -/
def sqDist (p q : Point) : ℚ :=
  (p.1 - q.1)^2 + (p.2.1 - q.2.1)^2 + (p.2.2 - q.2.2)^2

/-- `min_distances < always_include_radius` for one point: the point is within
`r` of some scan origin.  The `numpy` code computes the minimum over origins of
the Euclidean distances and compares with `r`; for `r ≥ 0` that is equivalent to
this squared-distance test. -/
def isAnchor (origins : List Point) (r : ℚ) (p : Point) : Bool :=
  origins.any (fun o => decide (sqDist p o < r^2))

/-- `np.where(min_distances < always_include_radius)[0]`: indices of the points
within `r` of some scan origin, in increasing order. -/
def anchorIndices (points origins : List Point) (r : ℚ) : List ℕ :=
  (List.range points.length).filter (fun i => isAnchor origins r (points.getD i default))

/-- Boolean-mask row selection `points[mask]`: keep the points whose index
satisfies the mask, preserving order. -/
def maskFilter (points : List Point) (mask : ℕ → Bool) : List Point :=
  ((List.range points.length).filter mask).map (fun i => points.getD i default)

theorem getD_mem_maskFilter {points : List Point} {mask : ℕ → Bool} {i : ℕ}
    (hi : i < points.length) (hm : mask i = true) :
    points.getD i default ∈ maskFilter points mask := by
  unfold maskFilter
  exact List.mem_map.mpr ⟨i, List.mem_filter.mpr ⟨List.mem_range.mpr hi, hm⟩, rfl⟩

theorem maskFilter_ne_nil {points : List Point} {mask : ℕ → Bool} {i : ℕ}
    (hi : i < points.length) (hm : mask i = true) :
    maskFilter points mask ≠ [] :=
  List.ne_nil_of_mem (getD_mem_maskFilter hi hm)

/-- `get_min_bound` restricted to the x,y coordinates: componentwise minimum
over the cloud (the `open3d` convention for an empty cloud is the zero vector). -/
def minXY : List Point → ℚ × ℚ
  | [] => (0, 0)
  | p :: t => t.foldl (fun a q => (qmin a.1 q.1, qmin a.2 q.2.1)) (p.1, p.2.1)

/-- Computable binary maximum on `ℚ`. -/
def qmax (a b : ℚ) : ℚ := if a ≤ b then b else a

/-- `get_max_bound` restricted to the x,y coordinates. -/
def maxXY : List Point → ℚ × ℚ
  | [] => (0, 0)
  | p :: t => t.foldl (fun a q => (qmax a.1 q.1, qmax a.2 q.2.1)) (p.1, p.2.1)

/-- The raw image dimensions before the size cap:
`width = int(np.ceil((max_x - min_x) * resolution))` and likewise for the height. -/
def rawDims (mn mx : ℚ × ℚ) (res : ℚ) : ℤ × ℤ :=
  (⌈(mx.1 - mn.1) * res⌉, ⌈(mx.2 - mn.2) * res⌉)

/-- `scale_factor = min(10000 / width, 10000 / height)` computed from the raw
dimensions, used when the image is too large. -/
def scaleFactor (mn mx : ℚ × ℚ) (res : ℚ) : ℚ :=
  qmin (10000 / ((rawDims mn mx res).1 : ℚ)) (10000 / ((rawDims mn mx res).2 : ℚ))

/-- Width, height and effective resolution of the density image.  If either raw
dimension exceeds 10000 the code rescales: `scale = min(10000/width, 10000/height)`,
`width = int(width*scale)`, `height = int(height*scale)`, `resolution *= scale`
(`int` truncation of the nonnegative products is `Int.floor`). -/
def computeProjection (mn mx : ℚ × ℚ) (res : ℚ) : ℤ × ℤ × ℚ :=
  if 10000 < (rawDims mn mx res).1 ∨ 10000 < (rawDims mn mx res).2 then
    (⌊((rawDims mn mx res).1 : ℚ) * scaleFactor mn mx res⌋,
     ⌊((rawDims mn mx res).2 : ℚ) * scaleFactor mn mx res⌋,
     res * scaleFactor mn mx res)
  else
    ((rawDims mn mx res).1, (rawDims mn mx res).2, res)

/-- The 4×4 projection matrix built from width, height, resolution and the minimum
corner: `focal_length = resolution/shape`, `principal_point = -min_xy*resolution/shape`,
with the y focal negated and the z row zero. -/
def projection_matrix (w h : ℤ) (res : ℚ) (mn : ℚ × ℚ) : List (List ℚ) :=
  [[res / (w:ℚ), 0, 0, -(mn.1) * res / (w:ℚ)],
   [0, -(res / (h:ℚ)), 0, -(mn.2) * res / (h:ℚ)],
   [0, 0, 0, 0],
   [0, 0, 0, 1]]

/-- Entry `m[i][j]` of a matrix stored as a list of rows. -/
def mEntry (m : List (List ℚ)) (i j : ℕ) : ℚ := (m.getD i []).getD j 0

/-- The first two components of `matmul(homogeneous(p), M.transpose())`: the uv
coordinates of a (already y-flipped, if requested) point. -/
def uvOf (m : List (List ℚ)) (p : Point) : ℚ × ℚ :=
  (mEntry m 0 0 * p.1 + mEntry m 0 1 * p.2.1 + mEntry m 0 2 * p.2.2 + mEntry m 0 3,
   mEntry m 1 0 * p.1 + mEntry m 1 1 * p.2.1 + mEntry m 1 2 * p.2.2 + mEntry m 1 3)

/-- Negate the y coordinate when the `flip_y` option is on. -/
def flipPoint (flip : Bool) (p : Point) : Point :=
  if flip then (p.1, -p.2.1, p.2.2) else p

/-- `pixel = round(uv * (dimension - 1))` for one point, as integer pixel
coordinates `(pixel_x, pixel_y)`. -/
def pixel_of (w h : ℤ) (m : List (List ℚ)) (p : Point) : ℤ × ℤ :=
  (np_round ((uvOf m p).1 * ((w:ℚ) - 1)), np_round ((uvOf m p).2 * ((h:ℚ) - 1)))

/-- The `valid_mask` of the code: the pixel lies in `[0, width) × [0, height)`. -/
def validPixel (w h : ℤ) (q : ℤ × ℤ) : Bool :=
  decide (0 ≤ q.1) && decide (q.1 < w) && decide (0 ≤ q.2) && decide (q.2 < h)

/-- Pixel coordinates of the retained (in-image) points, in cloud order:
flip, project through the matrix, round, and drop pixels outside the image. -/
def pixelsOf (w h : ℤ) (m : List (List ℚ)) (flip : Bool) (ps : List Point) : List (ℤ × ℤ) :=
  (ps.map (fun p => pixel_of w h m (flipPoint flip p))).filter (validPixel w h)

/-- One `density_image[y, x] += 1` step on a `np.uint16` cell: wraparound
addition modulo 2^16. -/
def uint16_incr (c : ℕ) : ℕ := (c + 1) % 65536

/-- Final value of the uint16 cell `q` after all increments: fold the wrapping
increment over the retained pixel list, starting from 0. -/
def cellCount (pixels : List (ℤ × ℤ)) (q : ℤ × ℤ) : ℕ :=
  pixels.foldl (fun c p => if p = q then uint16_incr c else c) 0

/-- The accumulated density grid, row-major: entry `[y][x]` is the uint16 count of
retained points whose pixel is `(x, y)`. -/
def gridOf (w h : ℤ) (pixels : List (ℤ × ℤ)) : List (List ℕ) :=
  (List.range h.toNat).map (fun y => (List.range w.toNat).map (fun x => cellCount pixels ((x:ℤ), (y:ℤ))))

/-- `np.max(density_image)`: the maximum cell value of the grid. -/
def maxVal (g : List (List ℕ)) : ℕ :=
  (g.map (fun row => row.foldl Nat.max 0)).foldl Nat.max 0

/-- Normalization of the count grid: if the maximum is positive every cell becomes
`255 - (count / maxCount) * 255`; otherwise the result is an all-255 grid of the
same shape. -/
def normalizeGrid (g : List (List ℕ)) : List (List ℚ) :=
  if 0 < maxVal g then
    g.map (fun row => row.map (fun c : ℕ => 255 - ((c:ℚ) / (maxVal g : ℚ)) * 255))
  else
    g.map (fun row => row.map (fun _ : ℕ => (255:ℚ)))

/-- The x,y corners of a bounding box. -/
def corners (mn mx : ℚ × ℚ) : List (ℚ × ℚ) :=
  [(mn.1, mn.2), (mx.1, mn.2), (mn.1, mx.2), (mx.1, mx.2)]

/-- A planar location `c` (lifted to z = 0) lands inside the image after the flip,
the projective transform, and the rounding pixel mapping. -/
def pixelInBounds (proj : ℤ × ℤ × ℚ) (mn : ℚ × ℚ) (flip : Bool) (c : ℚ × ℚ) : Prop :=
  validPixel proj.1 proj.2.1
    (pixel_of proj.1 proj.2.1 (projection_matrix proj.1 proj.2.1 proj.2.2 mn)
      (flipPoint flip (c.1, c.2, 0))) = true

instance (proj : ℤ × ℤ × ℚ) (mn : ℚ × ℚ) (flip : Bool) (c : ℚ × ℚ) :
    Decidable (pixelInBounds proj mn flip c) :=
  Bool.decEq _ _

/-- Edge triplets emitted for source point `i` inside one loop iteration of
`find_triplets`: walk the KD-tree result `idx`, keep neighbors `j > i`, stop after
`max_nn` of them, and record `[i, j, 1]`. -/
def trgrab (i max_nn : ℕ) (idx : List ℕ) : List (ℕ × ℕ × ℕ) :=
  ((idx.filter (fun j => decide (i < j))).take max_nn).map (fun j => (i, j, 1))

/-- `find_triplets`: for every point index `i < n`, emit up to `max_nn` triplets
`[i, j, 1]` with `j > i` taken from the KD-tree radius query.  The query itself
(`kdtree.search_radius_vector_3d(points[i], radius)`) is the `open3d` KD-tree, an
external library; it is modelled by the index-list function `nn`. -/
def find_triplets (nn : ℕ → List ℕ) (n max_nn : ℕ) : List (ℕ × ℕ × ℕ) :=
  (List.range n).flatMap (fun i => trgrab i max_nn (nn i))

/-- One anchor-clique triplet: the code appends `[a, b, 1]` when `a > b` and
`[b, a, 1]` otherwise, so the larger index always comes first. -/
def orientPair (a b : ℕ) : ℕ × ℕ × ℕ :=
  if b < a then (a, b, 1) else (b, a, 1)

/-- The double loop over the first `num_nearby_points` sorted indices: one oriented
triplet for every position pair `index < pair_index`. -/
def cliquePairs : List ℕ → List (ℕ × ℕ × ℕ)
  | [] => []
  | a :: rest => rest.map (orientPair a) ++ cliquePairs rest

/-- Minimum squared distance of point `p` to the scan origins, `none` playing the
role of the `float('inf')` starting value of the `np.minimum` fold. -/
def minSqD (origins : List Point) (p : Point) : Option ℚ :=
  origins.foldr
    (fun o acc =>
      match acc with
      | none => some (sqDist p o)
      | some m => some (if sqDist p o ≤ m then sqDist p o else m))
    none

/-- Comparison of optional squared distances, `none` being infinity. -/
def optLE : Option ℚ → Option ℚ → Bool
  | _, none => true
  | none, some _ => false
  | some a, some b => decide (a ≤ b)

/-- Insert into a list sorted by `le`. -/
def insertByKey (le : ℕ → ℕ → Bool) (x : ℕ) : List ℕ → List ℕ
  | [] => [x]
  | y :: t => if le x y then x :: y :: t else y :: insertByKey le x t

/-- Insertion sort by `le`. -/
def sortByKey (le : ℕ → ℕ → Bool) : List ℕ → List ℕ
  | [] => []
  | x :: t => insertByKey le x (sortByKey le t)

/-- `np.argsort(min_distances)`: the point indices ordered by distance to the
nearest scan origin.  `numpy`'s argsort leaves the order of equal keys
unspecified; the model fixes one deterministic order. -/
def sortedIndices (points origins : List Point) : List ℕ :=
  sortByKey (fun i j => optLE (minSqD origins (points.getD i default)) (minSqD origins (points.getD j default)))
    (List.range points.length)

/-- Merge the label classes of the two endpoints of one edge: every occurrence of
the label of `e.1` is replaced by the label of `e.2`. -/
def ccMerge (labels : List ℕ) (e : ℕ × ℕ) : List ℕ :=
  labels.map (fun l => if l = labels.getD e.1 e.1 then labels.getD e.2 e.2 else l)

/-- Connected-component labels of the undirected graph on `n` vertices given by the
edge list.  This models the external `scipy.sparse.csgraph.connected_components`
call up to an injective renaming of the component ids; the filter consumes the
labels only through equality patterns, which such a renaming preserves. -/
def ccLabels (n : ℕ) (es : List (ℕ × ℕ)) : List ℕ :=
  es.foldl ccMerge (List.range n)

/-- The concatenated triplet list of `filter_using_graph`: the radius-search
triplets followed by the anchor-clique triplets built from the
`min(max_num_nearby_points, num_points)` indices closest to the origins. -/
def all_triplets (points origins : List Point) (max_nn max_nearby : ℕ) (nn : ℕ → List ℕ) :
    List (ℕ × ℕ × ℕ) :=
  find_triplets nn points.length max_nn ++
    cliquePairs ((sortedIndices points origins).take (Nat.min max_nearby points.length))

/-- `filter_using_graph`: build the triplets, label connected components, keep the
components that contain a point within `always_include_radius` of a scan origin,
and select those rows of the cloud.  `radius` is consumed by the external KD-tree
query modelled by `nn`. -/
def filter_using_graph (points origins : List Point) (radius : ℚ) (max_nn max_nearby : ℕ)
    (always_include_radius : ℚ) (nn : ℕ → List ℕ) : List Point :=
  let comps := ccLabels points.length
    ((all_triplets points origins max_nn max_nearby nn).map (fun t => (t.1, t.2.1)))
  let valid := ((anchorIndices points origins always_include_radius).map
    (fun i => comps.getD i 0)).dedup
  let _ := radius
  maskFilter points (fun i => valid.contains (comps.getD i 0))

/-- `valid_clusters` of `filter_using_dbscan`: the distinct DBSCAN labels of the
points near scan origins, with the noise label (−1, and anything negative)
removed. -/
def valid_clusters (points origins : List Point) (labels : List ℤ)
    (always_include_radius : ℚ) : List ℤ :=
  (((anchorIndices points origins always_include_radius).map
    (fun i => labels.getD i 0)).dedup).filter (fun l => decide (0 ≤ l))

/-- `filter_using_dbscan`: keep the points whose DBSCAN label belongs to a valid
cluster; if there is no valid cluster, fall back to the direct distance mask.
`labels` is the result of the external `point_cloud.cluster_dbscan(eps=radius,
min_points=3)` call. -/
def filter_using_dbscan (points origins : List Point) (labels : List ℤ)
    (always_include_radius : ℚ) : List Point :=
  let vc := valid_clusters points origins labels always_include_radius
  if vc ≠ [] then
    maskFilter points (fun i => vc.contains (labels.getD i 0))
  else
    maskFilter points (fun i => isAnchor origins always_include_radius (points.getD i default))

/-- `filter_by_connected_components`: try the DBSCAN strategy and fall back to the
graph strategy when it raises.  The outcome of the external `cluster_dbscan` call
inside the `try` block is the parameter `dbscan`: `some labels` when the call
returns, `none` when it raises. -/
def filter_by_connected_components (points origins : List Point) (radius : ℚ)
    (max_nn max_nearby : ℕ) (always_include_radius : ℚ) (nn : ℕ → List ℕ)
    (dbscan : Option (List ℤ)) : List Point :=
  match dbscan with
  | some labels => filter_using_dbscan points origins labels always_include_radius
  | none =>
    filter_using_graph points origins radius max_nn max_nearby always_include_radius nn

/-- Computable binary minimum on `ℤ`. -/
def imin (a b : ℤ) : ℤ := if a ≤ b then a else b

/-- Computable binary maximum on `ℤ`. -/
def imax (a b : ℤ) : ℤ := if a ≤ b then b else a

/-- The projection parameters handed from `create_density_image` to
`draw_scene_outlines`: width, height and the projection matrix. -/
structure ProjParams where
  width : ℤ
  height : ℤ
  matrix : List (List ℚ)
deriving DecidableEq

/-- One drawing call issued on the PIL image: polygon fill, closed outline, the
label background rectangle, or the label text.  Colors are recorded by their hue
(the code derives the rgb value from the hue through `colorsys`, an external
library). -/
inductive DrawOp where
  | polyFill : List (ℤ × ℤ) → ℚ → DrawOp
  | polyLine : List (ℤ × ℤ) → ℚ → DrawOp
  | rect : (ℤ × ℤ) → (ℤ × ℤ) → DrawOp
  | text : (ℤ × ℤ) → String → ℚ → DrawOp
deriving DecidableEq

/-- A PIL image, modelled by its mode (grayscale or RGB) and the history of
drawing operations applied on top of its base pixel content. -/
structure PILImage where
  rgb : Bool
  ops : List DrawOp
deriving DecidableEq

/-- `image.convert('RGB')` when the mode is not already RGB: a copy with the same
pixel content in RGB mode. -/
def convertRGB (img : PILImage) : PILImage :=
  if img.rgb then img else { rgb := true, ops := img.ops }

/-- One scene record of the annotations JSON: the `outline` polygon (`none` when
the field is missing), the scene id, and the optional name and type fields. -/
structure Scene where
  outline : Option (List (ℚ × ℚ))
  sid : ℕ
  sname : Option String
  stype : Option String
deriving DecidableEq

/-- `project_point` of the overlay pass: transform an annotation vertex through the
shared projection matrix, then `floor(uv * dimension)` and clamp into the image. -/
def project_point (pp : ProjParams) (x y : ℚ) : ℤ × ℤ :=
  let uv := uvOf pp.matrix (x, y, 0)
  let px := ⌊uv.1 * (pp.width:ℚ)⌋
  let py := ⌊uv.2 * (pp.height:ℚ)⌋
  (imax 0 (imin px (pp.width - 1)), imax 0 (imin py (pp.height - 1)))

/-- Render one scene onto the image: project the outline, fill the polygon, draw
the closed outline, and place the label with its background box at the centroid of
the projected vertices.  A missing `outline` field raises (KeyError) before any
drawing; an empty outline makes the polygon call raise before anything is drawn. -/
def renderScene (pp : ProjParams) (hue : ℚ) (img : PILImage) (s : Scene) :
    Except Unit PILImage :=
  match s.outline with
  | none => Except.error ()
  | some [] => Except.error ()
  | some (q :: rest) =>
    let ipts := (q :: rest).map (fun c => project_point pp c.1 c.2)
    let n : ℤ := (ipts.length : ℤ)
    let cx := ((ipts.map Prod.fst).foldl (· + ·) 0).fdiv n
    let cy := ((ipts.map Prod.snd).foldl (· + ·) 0).fdiv n
    let label := (s.sname.getD ("Scene " ++ toString s.sid)) ++ " (" ++ s.stype.getD "" ++ ")"
    let tw : ℤ := (label.length : ℤ) * 6
    Except.ok { img with ops := img.ops ++
      [DrawOp.polyFill ipts hue,
       DrawOp.polyLine (ipts ++ [project_point pp q.1 q.2]) hue,
       DrawOp.rect (cx - 5, cy - 10) (cx + tw + 5, cy + 10),
       DrawOp.text (cx, cy) label hue] }

/-- The scene loop of the overlay pass.  Scene `i` of `count` gets hue `i/count`;
the first raising scene aborts the loop, the `error` payload being the image as
drawn so far (the raised exception leaves the mutated local image behind). -/
def drawScenesE (pp : ProjParams) (count : ℕ) :
    List Scene → ℕ → PILImage → Except PILImage PILImage
  | [], _, img => Except.ok img
  | s :: rest, i, img =>
    match renderScene pp ((i : ℚ) / (count : ℚ)) img s with
    | Except.ok img2 => drawScenesE pp count rest (i + 1) img2
    | Except.error _ => Except.error img

/-- The annotations input after `json.load`:
* `malformed` – the JSON fails to parse or has no `section_details` key (raises
  before the image is touched);
* `parsedOuter none` – `section_details` parses but `annotation`/`scenes` is
  missing (raises at the scene-count line, after the RGB conversion);
* `parsedOuter (some scenes)` – the scene list is available. -/
inductive AnnInput where
  | malformed : AnnInput
  | parsedOuter : Option (List Scene) → AnnInput
deriving DecidableEq

/-- The body of the `try` block of `draw_scene_outlines`: parse, convert the image
to RGB, then draw every scene.  The `error` payload is the value of the local
`image` variable at the moment the exception is raised. -/
def overlayBody (img : PILImage) (ann : AnnInput) (pp : ProjParams) :
    Except PILImage PILImage :=
  match ann with
  | AnnInput.malformed => Except.error img
  | AnnInput.parsedOuter none => Except.error (convertRGB img)
  | AnnInput.parsedOuter (some scenes) =>
    drawScenesE pp scenes.length scenes 0 (convertRGB img)

/-- `draw_scene_outlines`: run the overlay pass and, on any exception, catch it and
return the current image. -/
def draw_scene_outlines (img : PILImage) (ann : AnnInput) (pp : ProjParams) : PILImage :=
  match overlayBody img ann pp with
  | Except.ok out => out
  | Except.error out => out

theorem foldl_uint16_incr (q : ℤ × ℤ) :
    ∀ (pixels : List (ℤ × ℤ)) (acc : ℕ),
      pixels.foldl (fun c p => if p = q then uint16_incr c else c) acc =
        uint16_incr^[pixels.count q] acc := by
  intro pixels
  induction pixels with
  | nil => intro acc; simp
  | cons p t ih =>
    intro acc
    rw [List.foldl_cons]
    by_cases hpq : p = q
    · subst hpq
      rw [if_pos rfl, ih, List.count_cons_self, Function.iterate_succ_apply]
    · have hbeq : (p == q) = false := beq_eq_false_iff_ne.mpr hpq
      rw [if_neg hpq, ih, List.count_cons, hbeq]
      simp

theorem uint16_incr_iterate : ∀ (n acc : ℕ),
    uint16_incr^[n + 1] acc = (acc + n + 1) % 65536 := by
  intro n
  induction n with
  | zero => intro acc; simp [uint16_incr]
  | succ m ih =>
    intro acc
    rw [Function.iterate_succ_apply, ih (uint16_incr acc)]
    unfold uint16_incr
    omega

/-- C10: the per-pixel accumulation grid is 16-bit unsigned: the stored count of a
cell is the number of retained points mapping to that pixel modulo 2^16, and a
pixel receiving exactly 65536 points wraps around to a stored count of 0. -/
theorem c10_uint16_wraparound :
    (∀ (pixels : List (ℤ × ℤ)) (q : ℤ × ℤ), cellCount pixels q = pixels.count q % 65536) ∧
    cellCount (List.replicate 65536 ((0:ℤ), (0:ℤ))) ((0:ℤ), (0:ℤ)) = 0 := by
  have main : ∀ (pixels : List (ℤ × ℤ)) (q : ℤ × ℤ),
      cellCount pixels q = pixels.count q % 65536 := by
    intro pixels q
    unfold cellCount
    rw [foldl_uint16_incr q pixels 0]
    cases hc : pixels.count q with
    | zero => simp
    | succ m => rw [uint16_incr_iterate m 0]; omega
  refine ⟨main, ?_⟩
  have hcount : (List.replicate 65536 ((0:ℤ), (0:ℤ))).count ((0:ℤ), (0:ℤ)) = 65536 := by
    rw [List.count_replicate]
    simp
  rw [main, hcount, Nat.mod_self]

/-- C5: when the primary DBSCAN strategy raises, `filter_by_connected_components`
recovers locally and returns exactly the result of the graph-connectivity
strategy; the failure does not propagate. -/
theorem c5_dbscan_failure_falls_back (points origins : List Point) (radius : ℚ)
    (max_nn max_nearby : ℕ) (always_include_radius : ℚ) (nn : ℕ → List ℕ) :
    filter_by_connected_components points origins radius max_nn max_nearby
        always_include_radius nn none =
      filter_using_graph points origins radius max_nn max_nearby
        always_include_radius nn := rfl

/-- C6: after normalization every cell with underlying count `c` holds
`255 − (c / maxCount) × 255` when the maximum count is positive, and `255`
everywhere when the maximum count is zero. -/
theorem c6_normalize_values (g : List (List ℕ)) (i j : ℕ) (row : List ℕ) (c : ℕ)
    (h1 : g[i]? = some row) (h2 : row[j]? = some c) :
    (0 < maxVal g →
      ∃ nrow, (normalizeGrid g)[i]? = some nrow ∧
        nrow[j]? = some (255 - ((c:ℚ) / (maxVal g : ℚ)) * 255)) ∧
    (maxVal g = 0 →
      ∃ nrow, (normalizeGrid g)[i]? = some nrow ∧ nrow[j]? = some (255:ℚ)) := by
  constructor
  · intro hpos
    refine ⟨row.map (fun c : ℕ => 255 - ((c:ℚ) / (maxVal g : ℚ)) * 255), ?_, ?_⟩
    · rw [normalizeGrid, if_pos hpos, List.getElem?_map, h1]
      rfl
    · rw [List.getElem?_map, h2]
      rfl
  · intro hzero
    refine ⟨row.map (fun _ : ℕ => (255:ℚ)), ?_, ?_⟩
    · rw [normalizeGrid, if_neg (by omega), List.getElem?_map, h1]
      rfl
    · rw [List.getElem?_map, h2]
      rfl

theorem c6_normalize_values_witness :
    ∃ nrow, (normalizeGrid [[0, 2], [1, 0]])[0]? = some nrow ∧
      nrow[1]? = some (255 - ((2:ℚ) / (maxVal [[0, 2], [1, 0]] : ℚ)) * 255) :=
  (c6_normalize_values [[0, 2], [1, 0]] 0 1 [0, 2] 2 rfl rfl).1 (by decide)

theorem anchor_mem_anchorIndices {points origins : List Point} {r : ℚ} {i : ℕ}
    (hi : i < points.length) (ha : isAnchor origins r (points.getD i default) = true) :
    i ∈ anchorIndices points origins r :=
  List.mem_filter.mpr ⟨List.mem_range.mpr hi, ha⟩

theorem mem_filter_using_graph_of_anchor {points origins : List Point} {radius : ℚ}
    {max_nn max_nearby : ℕ} {r : ℚ} {nn : ℕ → List ℕ} {i : ℕ}
    (hi : i < points.length) (ha : isAnchor origins r (points.getD i default) = true) :
    points.getD i default ∈
      filter_using_graph points origins radius max_nn max_nearby r nn := by
  unfold filter_using_graph
  refine getD_mem_maskFilter hi ?_
  apply List.elem_iff.mpr
  exact List.mem_dedup.mpr
    (List.mem_map.mpr ⟨i, anchor_mem_anchorIndices hi ha, rfl⟩)

theorem mem_filter_using_dbscan_of_anchor {points origins : List Point} {labels : List ℤ}
    {r : ℚ} {i : ℕ} (hi : i < points.length)
    (ha : isAnchor origins r (points.getD i default) = true)
    (hlab : 0 ≤ labels.getD i 0 ∨ valid_clusters points origins labels r = []) :
    points.getD i default ∈ filter_using_dbscan points origins labels r := by
  by_cases hvc : valid_clusters points origins labels r = []
  · rw [filter_using_dbscan, if_neg (by simp [hvc])]
    exact getD_mem_maskFilter hi ha
  · have hl : 0 ≤ labels.getD i 0 := by
      rcases hlab with h | h
      · exact h
      · exact absurd h hvc
    rw [filter_using_dbscan, if_pos (by simp [hvc])]
    refine getD_mem_maskFilter hi ?_
    apply List.elem_iff.mpr
    unfold valid_clusters
    refine List.mem_filter.mpr ⟨?_, by simpa using hl⟩
    exact List.mem_dedup.mpr
      (List.mem_map.mpr ⟨i, anchor_mem_anchorIndices hi ha, rfl⟩)

theorem filter_using_dbscan_ne_nil_of_anchor {points origins : List Point}
    {labels : List ℤ} {r : ℚ} {i : ℕ} (hi : i < points.length)
    (ha : isAnchor origins r (points.getD i default) = true) :
    filter_using_dbscan points origins labels r ≠ [] := by
  by_cases hvc : valid_clusters points origins labels r = []
  · exact List.ne_nil_of_mem (mem_filter_using_dbscan_of_anchor hi ha (Or.inr hvc))
  · obtain ⟨l, hl⟩ : ∃ l, l ∈ valid_clusters points origins labels r := by
      cases hv : valid_clusters points origins labels r with
      | nil => exact absurd hv hvc
      | cons a t => exact ⟨a, List.mem_cons_self a t⟩
    have hl2 := List.mem_filter.mp hl
    obtain ⟨j, hj, hjl⟩ := List.mem_map.mp (List.mem_dedup.mp hl2.1)
    have hj2 := List.mem_filter.mp hj
    have hjlen : j < points.length := List.mem_range.mp hj2.1
    rw [filter_using_dbscan, if_pos (by simp [hvc])]
    refine maskFilter_ne_nil hjlen ?_
    apply List.elem_iff.mpr
    rw [hjl]
    exact hl

/-- C1 (amended): an anchor point is always retained by the graph-connectivity
path; on the DBSCAN path it is retained when its label is a valid cluster (any
label ≥ 0 of an anchor point is) or when no valid cluster exists at all (the
direct distance-mask fallback).  An anchor point labeled noise is dropped whenever
some other anchor point lies in a real cluster, so retention is not independent of
the labeling. -/
theorem c1_anchor_retention_amended (points origins : List Point) (radius : ℚ)
    (max_nn max_nearby : ℕ) (always_include_radius : ℚ) (nn : ℕ → List ℕ)
    (labels : List ℤ) (i : ℕ) (hi : i < points.length)
    (ha : isAnchor origins always_include_radius (points.getD i default) = true) :
    points.getD i default ∈
      filter_using_graph points origins radius max_nn max_nearby
        always_include_radius nn ∧
    ((0 ≤ labels.getD i 0 ∨
        valid_clusters points origins labels always_include_radius = []) →
      points.getD i default ∈
        filter_using_dbscan points origins labels always_include_radius) :=
  ⟨mem_filter_using_graph_of_anchor hi ha,
   fun hlab => mem_filter_using_dbscan_of_anchor hi ha hlab⟩

theorem c1_anchor_retention_witness :
    (((0:ℚ), (0:ℚ), (0:ℚ)) : Point) ∈
      filter_using_graph [((0:ℚ), 0, 0)] [((0:ℚ), 0, 0)] 1 10 300 10 (fun _ => [0]) ∧
    (((0:ℚ), (0:ℚ), (0:ℚ)) : Point) ∈
      filter_using_dbscan [((0:ℚ), 0, 0)] [((0:ℚ), 0, 0)] [0] 10 := by
  have h := c1_anchor_retention_amended [((0:ℚ), 0, 0)] [((0:ℚ), 0, 0)] 1 10 300 10
    (fun _ => [0]) [0] 0 (by decide) (by decide)
  exact ⟨h.1, h.2 (Or.inl (by decide))⟩

/-- C1 (counterexample): with points `(0,0,0), (1/2,0,0), (1,0,0), (5,0,0)`, one
scan origin at the origin and `always_include_radius = 10`, every point is an
anchor point; under the DBSCAN labeling `[0,0,0,-1]` (the isolated fourth point is
noise for `eps = 1`, `min_points = 3`) the anchor point `(5,0,0)` is dropped from
the result of `filter_by_connected_components`, refuting the claim that anchor
points survive regardless of their component label. -/
theorem c1_counterexample :
    isAnchor [((0:ℚ), 0, 0)] 10 ((5:ℚ), 0, 0) = true ∧
    (((5:ℚ), (0:ℚ), (0:ℚ)) : Point) ∉
      filter_by_connected_components
        [((0:ℚ), 0, 0), ((1:ℚ)/2, 0, 0), ((1:ℚ), 0, 0), ((5:ℚ), 0, 0)]
        [((0:ℚ), 0, 0)] 1 10 300 10 (fun _ => []) (some [0, 0, 0, -1]) := by
  constructor
  · decide
  · decide

/-- C2 (amended): whenever at least one point of the cloud lies within
`always_include_radius` of a scan origin, `filter_by_connected_components` returns
a non-empty cloud on both strategies (DBSCAN with any labeling, and the graph
fallback).  Without such a point both strategies can return an empty result, so
non-emptiness is not guaranteed by `always_include_radius > 0` alone. -/
theorem c2_nonempty_amended (points origins : List Point) (radius : ℚ)
    (max_nn max_nearby : ℕ) (always_include_radius : ℚ) (nn : ℕ → List ℕ)
    (dbscan : Option (List ℤ)) (i : ℕ) (hi : i < points.length)
    (ha : isAnchor origins always_include_radius (points.getD i default) = true) :
    filter_by_connected_components points origins radius max_nn max_nearby
      always_include_radius nn dbscan ≠ [] := by
  cases dbscan with
  | none =>
    exact List.ne_nil_of_mem
      (@mem_filter_using_graph_of_anchor points origins radius max_nn max_nearby
        always_include_radius nn i hi ha)
  | some labels =>
    exact @filter_using_dbscan_ne_nil_of_anchor points origins labels
      always_include_radius i hi ha

theorem c2_nonempty_witness :
    filter_by_connected_components [((0:ℚ), 0, 0)] [((0:ℚ), 0, 0)] 1 10 300 10
      (fun _ => [0]) none ≠ [] :=
  c2_nonempty_amended [((0:ℚ), 0, 0)] [((0:ℚ), 0, 0)] 1 10 300 10 (fun _ => [0])
    none 0 (by decide) (by decide)

/-- C2 (counterexample): a non-empty cloud with one point far from the only scan
origin and `always_include_radius = 1 > 0`: the single point is DBSCAN noise, no
cluster qualifies, and the fallback distance mask is empty, so the filter returns
an empty cloud even though the input is non-empty. -/
theorem c2_counterexample :
    ([((100:ℚ), 0, 0)] : List Point) ≠ [] ∧ (0:ℚ) < 1 ∧
    filter_by_connected_components [((100:ℚ), 0, 0)] [((0:ℚ), 0, 0)] (1/10) 10 300 1
      (fun _ => []) (some [-1]) = [] := by
  refine ⟨by decide, by decide, ?_⟩
  decide

theorem convertRGB_ops (img : PILImage) : (convertRGB img).ops = img.ops := by
  unfold convertRGB
  split <;> rfl

theorem renderScene_ok_ops {pp : ProjParams} {hue : ℚ} {img : PILImage} {s : Scene}
    {img2 : PILImage} (h : renderScene pp hue img s = Except.ok img2) :
    img.ops <+: img2.ops := by
  cases ho : s.outline with
  | none => rw [renderScene, ho] at h; exact absurd h (by simp)
  | some l =>
    cases l with
    | nil => rw [renderScene, ho] at h; exact absurd h (by simp)
    | cons q rest =>
      rw [renderScene, ho] at h
      injection h with h2
      subst h2
      exact List.prefix_append _ _

theorem drawScenesE_ops_extend (pp : ProjParams) (count : ℕ) :
    ∀ (scenes : List Scene) (i : ℕ) (img out : PILImage),
      (drawScenesE pp count scenes i img = Except.ok out ∨
        drawScenesE pp count scenes i img = Except.error out) →
      img.ops <+: out.ops := by
  intro scenes
  induction scenes with
  | nil =>
    intro i img out h
    rcases h with h | h
    · rw [drawScenesE] at h
      injection h with h2
      subst h2
      exact List.prefix_refl _
    · rw [drawScenesE] at h
      exact absurd h (by simp)
  | cons s rest ih =>
    intro i img out h
    cases hr : renderScene pp ((i : ℚ) / (count : ℚ)) img s with
    | error e =>
      have hd : drawScenesE pp count (s :: rest) i img = Except.error img := by
        rw [drawScenesE, hr]
      rcases h with h | h
      · rw [hd] at h; exact absurd h (by simp)
      · rw [hd] at h
        injection h with h2
        subst h2
        exact List.prefix_refl _
    | ok img2 =>
      have hd : drawScenesE pp count (s :: rest) i img =
          drawScenesE pp count rest (i + 1) img2 := by
        rw [drawScenesE, hr]
      rw [hd] at h
      exact (renderScene_ok_ops hr).trans (ih (i + 1) img2 out h)

/-- C3 (amended): no failure of the overlay pass ever propagates, and a failure
while parsing the annotations (malformed JSON or a missing `section_details`)
returns the base density image unmodified; however a failure after parsing begins
— a missing `annotation`/`scenes` field or a failure while rendering a polygon —
returns the RGB-converted, possibly partially annotated image, which preserves the
base pixel content (drawing operations are only appended) but need not be
pixel-identical to the input. -/
theorem c3_overlay_containment_amended :
    (∀ (img : PILImage) (pp : ProjParams),
      draw_scene_outlines img AnnInput.malformed pp = img) ∧
    (∀ (img : PILImage) (ann : AnnInput) (pp : ProjParams),
      img.ops <+: (draw_scene_outlines img ann pp).ops) := by
  constructor
  · intro img pp
    rfl
  · intro img ann pp
    cases ann with
    | malformed => exact List.prefix_refl _
    | parsedOuter o =>
      cases o with
      | none =>
        have : draw_scene_outlines img (AnnInput.parsedOuter none) pp = convertRGB img := rfl
        rw [this, convertRGB_ops]
      | some scenes =>
        rw [draw_scene_outlines, overlayBody]
        rcases hd : drawScenesE pp scenes.length scenes 0 (convertRGB img) with out | out
        · have := drawScenesE_ops_extend pp scenes.length scenes 0 (convertRGB img) out
            (Or.inr hd)
          rw [convertRGB_ops] at this
          exact this
        · have := drawScenesE_ops_extend pp scenes.length scenes 0 (convertRGB img) out
            (Or.inl hd)
          rw [convertRGB_ops] at this
          exact this

/-- The base grayscale density image used in the overlay counterexample. -/
def c3img : PILImage := { rgb := false, ops := [] }

/-- A well-formed scene: a triangle outline with id 1. -/
def c3good : Scene := { outline := some [(0, 0), (1, 0), (0, 1)], sid := 1, sname := none, stype := none }

/-- A malformed scene: the `outline` field is missing. -/
def c3bad : Scene := { outline := none, sid := 2, sname := none, stype := none }

/-- The projection parameters of a 10×10 density image for the unit box. -/
def c3pp : ProjParams :=
  { width := 10, height := 10, matrix := projection_matrix 10 10 10 (0, 0) }

/-- C3 (counterexample): on a scene list whose second scene has no `outline`, the
overlay pass fails mid-render (the loop raises after the first polygon is drawn),
yet `draw_scene_outlines` returns an image different from its base input — the
partially annotated RGB conversion — refuting the claim that any overlay failure
returns the base density image pixel-identical. -/
theorem c3_counterexample :
    (drawScenesE c3pp 2 [c3good, c3bad] 0 (convertRGB c3img)).isOk = false ∧
    draw_scene_outlines c3img (AnnInput.parsedOuter (some [c3good, c3bad])) c3pp ≠ c3img := by
  constructor
  · decide
  · decide

/-- C9: when the raw dimensions exceed 10000 in either axis (for a non-degenerate
bounding box and positive resolution), the projection computation rescales both
axes and the resolution by the single factor `min(10000/width, 10000/height)`
(preserving the aspect ratio up to the integer truncation of the dimensions), the
returned width and height are both ≤ 10000, and the projection matrix is the one
recomputed from the scaled width, height and resolution. -/
theorem c9_dimension_cap (mn mx : ℚ × ℚ) (res : ℚ) (hres : 0 < res)
    (hx : mn.1 < mx.1) (hy : mn.2 < mx.2)
    (hbig : 10000 < (rawDims mn mx res).1 ∨ 10000 < (rawDims mn mx res).2) :
    computeProjection mn mx res =
      (⌊((rawDims mn mx res).1 : ℚ) * scaleFactor mn mx res⌋,
       ⌊((rawDims mn mx res).2 : ℚ) * scaleFactor mn mx res⌋,
       res * scaleFactor mn mx res) ∧
    (computeProjection mn mx res).1 ≤ 10000 ∧
    (computeProjection mn mx res).2.1 ≤ 10000 ∧
    projection_matrix (computeProjection mn mx res).1 (computeProjection mn mx res).2.1
        (computeProjection mn mx res).2.2 mn =
      projection_matrix ⌊((rawDims mn mx res).1 : ℚ) * scaleFactor mn mx res⌋
        ⌊((rawDims mn mx res).2 : ℚ) * scaleFactor mn mx res⌋
        (res * scaleFactor mn mx res) mn := by
  have heq : computeProjection mn mx res =
      (⌊((rawDims mn mx res).1 : ℚ) * scaleFactor mn mx res⌋,
       ⌊((rawDims mn mx res).2 : ℚ) * scaleFactor mn mx res⌋,
       res * scaleFactor mn mx res) := by
    rw [computeProjection, if_pos hbig]
  have hw0 : (0:ℤ) < (rawDims mn mx res).1 :=
    Int.ceil_pos.mpr (mul_pos (by linarith) hres)
  have hh0 : (0:ℤ) < (rawDims mn mx res).2 :=
    Int.ceil_pos.mpr (mul_pos (by linarith) hres)
  have hwQ : (0:ℚ) < ((rawDims mn mx res).1 : ℚ) := by exact_mod_cast hw0
  have hhQ : (0:ℚ) < ((rawDims mn mx res).2 : ℚ) := by exact_mod_cast hh0
  have hsw : scaleFactor mn mx res ≤ 10000 / ((rawDims mn mx res).1 : ℚ) := by
    rw [scaleFactor, qmin_eq_min]
    exact min_le_left _ _
  have hsh : scaleFactor mn mx res ≤ 10000 / ((rawDims mn mx res).2 : ℚ) := by
    rw [scaleFactor, qmin_eq_min]
    exact min_le_right _ _
  have hwcap : ((rawDims mn mx res).1 : ℚ) * scaleFactor mn mx res ≤ 10000 := by
    calc ((rawDims mn mx res).1 : ℚ) * scaleFactor mn mx res ≤
        ((rawDims mn mx res).1 : ℚ) * (10000 / ((rawDims mn mx res).1 : ℚ)) :=
          mul_le_mul_of_nonneg_left hsw (le_of_lt hwQ)
      _ = 10000 := by field_simp
  have hhcap : ((rawDims mn mx res).2 : ℚ) * scaleFactor mn mx res ≤ 10000 := by
    calc ((rawDims mn mx res).2 : ℚ) * scaleFactor mn mx res ≤
        ((rawDims mn mx res).2 : ℚ) * (10000 / ((rawDims mn mx res).2 : ℚ)) :=
          mul_le_mul_of_nonneg_left hsh (le_of_lt hhQ)
      _ = 10000 := by field_simp
  refine ⟨heq, ?_, ?_, ?_⟩
  · rw [heq]
    have : (⌊((rawDims mn mx res).1 : ℚ) * scaleFactor mn mx res⌋ : ℤ) ≤
        ⌊(10000 : ℚ)⌋ := Int.floor_le_floor hwcap
    simpa using this
  · rw [heq]
    have : (⌊((rawDims mn mx res).2 : ℚ) * scaleFactor mn mx res⌋ : ℤ) ≤
        ⌊(10000 : ℚ)⌋ := Int.floor_le_floor hhcap
    simpa using this
  · rw [heq]

theorem c9_dimension_cap_witness :
    (computeProjection (0, 0) (200, 50) 100).1 ≤ 10000 ∧
    (computeProjection (0, 0) (200, 50) 100).2.1 ≤ 10000 ∧
    computeProjection (0, 0) (200, 50) 100 = (10000, 2500, 50) := by
  have h := c9_dimension_cap (0, 0) (200, 50) 100 (by norm_num) (by norm_num)
    (by norm_num) (by decide)
  exact ⟨h.2.1, h.2.2.1, by decide⟩

theorem np_round_bounds {W : ℤ} (hW : 1 ≤ W) {t : ℚ} (h0 : 0 ≤ t) (h1 : t ≤ 1) :
    0 ≤ np_round (t * ((W:ℚ) - 1)) ∧ np_round (t * ((W:ℚ) - 1)) < W := by
  have hW1 : (0:ℚ) ≤ (W:ℚ) - 1 := by
    have : (1:ℚ) ≤ (W:ℚ) := by exact_mod_cast hW
    linarith
  have hnn : 0 ≤ t * ((W:ℚ) - 1) := mul_nonneg h0 hW1
  have hle : t * ((W:ℚ) - 1) ≤ ((W - 1 : ℤ):ℚ) := by
    push_cast
    nlinarith
  exact ⟨np_round_nonneg hnn, by have := np_round_le_int hle; omega⟩

theorem proj_t_bounds {a b x res : ℚ} (hres : 0 < res) (hab : a < b)
    (hx : x = a ∨ x = b) :
    1 ≤ ⌈(b - a) * res⌉ ∧ 0 ≤ res * (x - a) / ((⌈(b - a) * res⌉ : ℤ):ℚ) ∧
      res * (x - a) / ((⌈(b - a) * res⌉ : ℤ):ℚ) ≤ 1 := by
  have hpos : (0:ℚ) < (b - a) * res := mul_pos (by linarith) hres
  have hW : (0:ℤ) < ⌈(b - a) * res⌉ := Int.ceil_pos.mpr hpos
  have hWQ : (0:ℚ) < ((⌈(b - a) * res⌉ : ℤ):ℚ) := by exact_mod_cast hW
  have hceil : (b - a) * res ≤ ((⌈(b - a) * res⌉ : ℤ):ℚ) := Int.le_ceil _
  refine ⟨by omega, ?_, ?_⟩
  · rcases hx with h | h
    · rw [h]
      simp
    · rw [h]
      apply div_nonneg _ (le_of_lt hWQ)
      apply mul_nonneg (le_of_lt hres)
      linarith
  · rcases hx with h | h
    · rw [h]
      simp
    · rw [h, div_le_one hWQ]
      calc res * (b - a) = (b - a) * res := by ring
        _ ≤ _ := hceil

theorem corner_pixel_bounds (mn mx : ℚ × ℚ) (res : ℚ) (W H : ℤ) (cx cy : ℚ)
    (hres : 0 < res) (hx : mn.1 < mx.1) (hy : mn.2 < mx.2)
    (hW : W = ⌈(mx.1 - mn.1) * res⌉) (hH : H = ⌈(mx.2 - mn.2) * res⌉)
    (hcx : cx = mn.1 ∨ cx = mx.1) (hcy : cy = mn.2 ∨ cy = mx.2) :
    validPixel W H (pixel_of W H (projection_matrix W H res mn) (cx, -cy, 0)) = true := by
  have hu : (uvOf (projection_matrix W H res mn) (cx, -cy, 0)).1 =
      res * (cx - mn.1) / (W:ℚ) := by
    simp only [uvOf, mEntry, projection_matrix, List.getD, List.get?, Option.getD_some]
    ring
  have hv : (uvOf (projection_matrix W H res mn) (cx, -cy, 0)).2 =
      res * (cy - mn.2) / (H:ℚ) := by
    simp only [uvOf, mEntry, projection_matrix, List.getD, List.get?, Option.getD_some]
    ring
  have hbx := proj_t_bounds hres hx hcx
  have hby := proj_t_bounds hres hy hcy
  rw [← hW] at hbx
  rw [← hH] at hby
  have hpx := np_round_bounds hbx.1 hbx.2.1 hbx.2.2
  have hpy := np_round_bounds hby.1 hby.2.1 hby.2.2
  simp only [validPixel, pixel_of, hu, hv, Bool.and_eq_true, decide_eq_true_eq]
  exact ⟨⟨⟨hpx.1, hpx.2⟩, hpy.1⟩, hpy.2⟩

/-- C4 (amended): for a cloud with a non-degenerate bounding box and a positive
resolution, **when the y flip is enabled and the raw dimensions stay within the
10000 cap** (so no rescale happens), all four corners of the bounding box project
to pixel coordinates inside `[0, width) × [0, height)` under
`round(uv * (dimension - 1))`.  With `flip_y` disabled a corner can project
outside, and so can one after the rescale, so the property does not hold for
every setting. -/
theorem c4_corners_in_bounds_amended (ps : List Point) (res : ℚ) (mn mx : ℚ × ℚ)
    (hmn : mn = minXY ps) (hmx : mx = maxXY ps) (hres : 0 < res)
    (hx : mn.1 < mx.1) (hy : mn.2 < mx.2)
    (hw : (rawDims mn mx res).1 ≤ 10000) (hh : (rawDims mn mx res).2 ≤ 10000) :
    ∀ c ∈ corners mn mx, pixelInBounds (computeProjection mn mx res) mn true c := by
  intro c hc
  have hproj : computeProjection mn mx res =
      ((rawDims mn mx res).1, (rawDims mn mx res).2, res) := by
    rw [computeProjection, if_neg (by omega)]
  have hflip : ∀ x y : ℚ, flipPoint true (x, y, 0) = (x, -y, (0:ℚ)) := fun _ _ => rfl
  unfold pixelInBounds
  rw [hproj]
  simp only [corners, List.mem_cons, List.not_mem_nil, or_false] at hc
  rcases hc with rfl | rfl | rfl | rfl <;>
    rw [hflip] <;>
    exact corner_pixel_bounds mn mx res _ _ _ _ hres hx hy rfl rfl
      (by simp) (by simp)

theorem c4_corners_witness :
    pixelInBounds
      (computeProjection (minXY [((0:ℚ), 0, 0), (1, 1, 0)])
        (maxXY [((0:ℚ), 0, 0), (1, 1, 0)]) 10)
      (minXY [((0:ℚ), 0, 0), (1, 1, 0)]) true (1, 1) := by
  have h := c4_corners_in_bounds_amended [((0:ℚ), 0, 0), (1, 1, 0)] 10
    (minXY [((0:ℚ), 0, 0), (1, 1, 0)]) (maxXY [((0:ℚ), 0, 0), (1, 1, 0)]) rfl rfl
    (by norm_num) (by decide) (by decide)
    (by decide) (by decide)
  exact h (1, 1) (by decide)

/-- C4 (counterexample): the corner property fails for some settings of `flip_y`.
With `flip_y = False` on the cloud `{(0,0,0), (1,1,0)}` at resolution 10, the
corner `(1,1)` projects to pixel row −9, outside the image.  And even with
`flip_y = True`, on the cloud `{(0,0,0), (204,20001,0)}` at resolution 1 the
rescale branch fires and the corner `(204,20001)` projects to pixel column 101 of
a width-101 image, also outside. -/
theorem c4_counterexample :
    minXY [((0:ℚ), 0, 0), (1, 1, 0)] = (0, 0) ∧
    maxXY [((0:ℚ), 0, 0), (1, 1, 0)] = (1, 1) ∧
    ¬ pixelInBounds (computeProjection (0, 0) (1, 1) 10) (0, 0) false (1, 1) ∧
    minXY [((0:ℚ), 0, 0), (204, 20001, 0)] = (0, 0) ∧
    maxXY [((0:ℚ), 0, 0), (204, 20001, 0)] = (204, 20001) ∧
    ¬ pixelInBounds (computeProjection (0, 0) (204, 20001) 1) (0, 0) true (204, 20001) := by
  refine ⟨?_, ?_, ?_, ?_, ?_, ?_⟩
  · decide
  · decide
  · decide
  · decide
  · decide
  · decide

/-- The four-point test cloud `(0,0,0), (1,0,0), (0,1,0), (1,1,0)`. -/
def c8cloud : List Point := [(0, 0, 0), (1, 0, 0), (0, 1, 0), (1, 1, 0)]

/-- The retained pixels of the test cloud at resolution 10 with the default
`flip_y = True`. -/
def c8pixels : List (ℤ × ℤ) :=
  pixelsOf 10 10 (projection_matrix 10 10 10 (0, 0)) true c8cloud

/-- The accumulated 10×10 density grid of the test cloud. -/
def c8grid : List (List ℕ) := gridOf 10 10 c8pixels

/-- C8: end to end on the cloud `(0,0,0),(1,0,0),(0,1,0),(1,1,0)` at
resolution 10: the bounding box is `(0,0)-(1,1)`, the image is
`ceil(1×10) = 10` pixels in both dimensions, the accumulated grid has exactly 4
cells with nonzero count, each of those counts is exactly 1, and every zero-count
cell normalizes to 255. -/
theorem c8_end_to_end :
    minXY c8cloud = (0, 0) ∧ maxXY c8cloud = (1, 1) ∧
    computeProjection (minXY c8cloud) (maxXY c8cloud) 10 = (10, 10, 10) ∧
    (c8grid.flatten.filter (fun c => decide (c ≠ 0))).length = 4 ∧
    (c8grid.flatten.filter (fun c => decide (c ≠ 0))).all (fun c => decide (c = 1)) = true ∧
    ((c8grid.flatten.zip (normalizeGrid c8grid).flatten).all
      (fun p => decide (p.1 ≠ 0) || decide (p.2 = 255))) = true := by
  refine ⟨?_, ?_, ?_, ?_, ?_, ?_⟩ <;> decide

theorem mem_trgrab {i max_nn : ℕ} {idx : List ℕ} {e : ℕ × ℕ × ℕ}
    (he : e ∈ trgrab i max_nn idx) :
    ∃ j, e = (i, j, 1) ∧ i < j ∧ j ∈ idx := by
  unfold trgrab at he
  obtain ⟨j, hj, rfl⟩ := List.mem_map.mp he
  have hj2 : j ∈ idx.filter (fun j => decide (i < j)) :=
    List.take_subset _ _ hj
  have hj3 := List.mem_filter.mp hj2
  exact ⟨j, rfl, by simpa using hj3.2, hj3.1⟩

theorem trgrab_nodup {i max_nn : ℕ} {idx : List ℕ} (h : idx.Nodup) :
    (trgrab i max_nn idx).Nodup := by
  unfold trgrab
  refine List.Nodup.map_on ?_ ?_
  · intro x _ y _ hxy
    injection hxy with h1 h2
    injection h2
  · exact (List.take_sublist _ _).nodup (h.filter _)

theorem trgrab_length_le (i max_nn : ℕ) (idx : List ℕ) :
    (trgrab i max_nn idx).length ≤ max_nn := by
  unfold trgrab
  rw [List.length_map, List.length_take]
  exact min_le_left _ _

theorem mem_find_triplets {nn : ℕ → List ℕ} {n max_nn : ℕ} {e : ℕ × ℕ × ℕ}
    (he : e ∈ find_triplets nn n max_nn) :
    ∃ i j, i < n ∧ e = (i, j, 1) ∧ i < j ∧ j ∈ nn i := by
  obtain ⟨i, hi, he2⟩ := List.mem_flatMap.mp he
  obtain ⟨j, rfl, hij, hj⟩ := mem_trgrab he2
  exact ⟨i, j, List.mem_range.mp hi, rfl, hij, hj⟩

theorem find_triplets_nodup {nn : ℕ → List ℕ} {n max_nn : ℕ}
    (hnn : ∀ i ∈ List.range n, (nn i).Nodup) :
    (find_triplets nn n max_nn).Nodup := by
  unfold find_triplets
  rw [List.nodup_flatMap]
  constructor
  · intro i hi
    exact trgrab_nodup (hnn i hi)
  · refine (List.pairwise_lt_range n).imp ?_
    intro i j hij
    intro e hei hej
    obtain ⟨a, rfl, _, _⟩ := mem_trgrab hei
    obtain ⟨b, hb, _, _⟩ := mem_trgrab hej
    injection hb with hb1
    omega

theorem flatMap_filter_first {f : ℕ → List (ℕ × ℕ × ℕ)}
    (hf : ∀ k e, e ∈ f k → e.1 = k) (i : ℕ) :
    ∀ (l : List ℕ), l.Nodup →
      (l.flatMap f).filter (fun e => decide (e.1 = i)) = if i ∈ l then f i else [] := by
  intro l
  induction l with
  | nil => intro _; simp
  | cons a t ih =>
    intro hnd
    rw [List.flatMap_cons, List.filter_append, ih hnd.of_cons]
    by_cases hai : a = i
    · subst hai
      have h1 : (f a).filter (fun e => decide (e.1 = a)) = f a :=
        List.filter_eq_self.mpr (fun e he => by simpa using hf a e he)
      have h2 : a ∉ t := (List.nodup_cons.mp hnd).1
      rw [h1, if_neg h2, if_pos (List.mem_cons_self a t)]
      simp
    · have h1 : (f a).filter (fun e => decide (e.1 = i)) = [] :=
        List.filter_eq_nil_iff.mpr (fun e he => by
          have := hf a e he
          simp [this, hai])
      rw [h1]
      have : (i ∈ a :: t) = (i ∈ t) := by
        simp [List.mem_cons, fun h : i = a => hai h.symm]
        intro h
        exact absurd h.symm hai
      by_cases hit : i ∈ t
      · rw [if_pos hit, if_pos (List.mem_cons_of_mem a hit)]
        simp
      · rw [if_neg hit, if_neg (by
          intro hc
          rcases List.mem_cons.mp hc with hc | hc
          · exact hai hc.symm
          · exact hit hc)]
        simp

theorem find_triplets_fanout {nn : ℕ → List ℕ} {n max_nn : ℕ} (i : ℕ) :
    ((find_triplets nn n max_nn).filter (fun e => decide (e.1 = i))).length ≤ max_nn := by
  unfold find_triplets
  rw [flatMap_filter_first (fun k e he => ((mem_trgrab he).choose_spec.1) ▸ rfl) i
    (List.range n) (List.nodup_range n)]
  split
  · exact trgrab_length_le i max_nn (nn i)
  · simp

theorem orientPair_snd_lt_fst {a b : ℕ} (h : a ≠ b) :
    (orientPair a b).2.1 < (orientPair a b).1 := by
  unfold orientPair
  split
  · next hlt => exact hlt
  · next hlt => show a < b; omega

theorem orientPair_mem_pair (a b : ℕ) :
    ((orientPair a b).1 = a ∨ (orientPair a b).1 = b) ∧
    ((orientPair a b).2.1 = a ∨ (orientPair a b).2.1 = b) ∧
    (orientPair a b).2.2 = 1 := by
  unfold orientPair
  split <;> simp

theorem orientPair_inj {a b b' : ℕ} (hb : b ≠ a) (hb' : b' ≠ a)
    (h : orientPair a b = orientPair a b') : b = b' := by
  unfold orientPair at h
  split at h <;> split at h <;> simp_all [Prod.mk.injEq]

theorem mem_cliquePairs {s : List ℕ} (hs : s.Nodup) {e : ℕ × ℕ × ℕ}
    (he : e ∈ cliquePairs s) :
    e.2.1 < e.1 ∧ e.1 ∈ s ∧ e.2.1 ∈ s ∧ e.2.2 = 1 := by
  induction s with
  | nil => simp [cliquePairs] at he
  | cons a rest ih =>
    rw [cliquePairs, List.mem_append] at he
    rcases he with he | he
    · obtain ⟨b, hb, rfl⟩ := List.mem_map.mp he
      have hab : a ≠ b := by
        intro hc
        exact (List.nodup_cons.mp hs).1 (hc ▸ hb)
      obtain ⟨h1, h2, h3⟩ := orientPair_mem_pair a b
      refine ⟨orientPair_snd_lt_fst hab, ?_, ?_, h3⟩
      · rcases h1 with h | h
        · rw [h]; exact List.mem_cons_self a rest
        · rw [h]; exact List.mem_cons_of_mem a hb
      · rcases h2 with h | h
        · rw [h]; exact List.mem_cons_self a rest
        · rw [h]; exact List.mem_cons_of_mem a hb
    · obtain ⟨h1, h2, h3, h4⟩ := ih (List.nodup_cons.mp hs).2 he
      exact ⟨h1, List.mem_cons_of_mem a h2, List.mem_cons_of_mem a h3, h4⟩

theorem cliquePairs_nodup {s : List ℕ} (hs : s.Nodup) : (cliquePairs s).Nodup := by
  induction s with
  | nil => simp [cliquePairs]
  | cons a rest ih =>
    have hna : a ∉ rest := (List.nodup_cons.mp hs).1
    have hrest : rest.Nodup := (List.nodup_cons.mp hs).2
    rw [cliquePairs]
    refine List.Nodup.append ?_ (ih hrest) ?_
    · refine List.Nodup.map_on ?_ hrest
      intro x hx y hy hxy
      have hxa : x ≠ a := fun hc => hna (hc ▸ hx)
      have hya : y ≠ a := fun hc => hna (hc ▸ hy)
      exact orientPair_inj hxa hya hxy
    · intro e hem hec
      obtain ⟨b, hb, rfl⟩ := List.mem_map.mp hem
      have hab : a ≠ b := fun hc => hna (hc ▸ hb)
      obtain ⟨h1, h2, _⟩ := orientPair_mem_pair a b
      obtain ⟨_, hc1, hc2, _⟩ := mem_cliquePairs hrest hec
      rcases h1 with h | h
      · exact hna (h ▸ hc1)
      · rcases h2 with h' | h'
        · exact hna (h' ▸ hc2)
        · have : (orientPair a b).2.1 < (orientPair a b).1 := orientPair_snd_lt_fst hab
          omega

theorem insertByKey_perm (le : ℕ → ℕ → Bool) (x : ℕ) :
    ∀ (l : List ℕ), (insertByKey le x l).Perm (x :: l) := by
  intro l
  induction l with
  | nil => rw [insertByKey]
  | cons y t ih =>
    rw [insertByKey]
    split
    · exact List.Perm.refl _
    · exact (ih.cons y).trans (List.Perm.swap x y t)

theorem sortByKey_perm (le : ℕ → ℕ → Bool) :
    ∀ (l : List ℕ), (sortByKey le l).Perm l := by
  intro l
  induction l with
  | nil => rw [sortByKey]
  | cons x t ih =>
    rw [sortByKey]
    exact (insertByKey_perm le x (sortByKey le t)).trans (ih.cons x)

theorem sortedIndices_perm (points origins : List Point) :
    (sortedIndices points origins).Perm (List.range points.length) :=
  sortByKey_perm _ _

theorem sortedIndices_take_nodup (points origins : List Point) (k : ℕ) :
    ((sortedIndices points origins).take k).Nodup :=
  (List.take_sublist _ _).nodup
    ((sortedIndices_perm points origins).nodup_iff.mpr (List.nodup_range _))

theorem sortedIndices_take_lt {points origins : List Point} {k i : ℕ}
    (hi : i ∈ (sortedIndices points origins).take k) : i < points.length := by
  have h1 : i ∈ sortedIndices points origins := List.take_subset _ _ hi
  have h2 : i ∈ List.range points.length :=
    (sortedIndices_perm points origins).mem_iff.mp h1
  exact List.mem_range.mp h2

/-- C7 (amended): under the KD-tree contract (each query returns distinct valid
indices), every radius-search triplet is `(i, j, 1)` with `i < j`, both indices
valid, no duplicates, and at most `max_nn` triplets per source point; every
anchor-clique triplet is `(i, j, 1)` with `j < i` — the **larger** index first —
both valid, no duplicates; and the concatenated triplet list has no duplicates.
The claim's orientation `i < j` holds only for the radius-search family: the
clique loop appends the larger index first. -/
theorem c7_edge_invariants_amended (points origins : List Point)
    (max_nn max_nearby : ℕ) (nn : ℕ → List ℕ)
    (hnn : ∀ i ∈ List.range points.length,
      (nn i).Nodup ∧ ∀ j ∈ nn i, j < points.length) :
    (∀ e ∈ find_triplets nn points.length max_nn,
        e.1 < e.2.1 ∧ e.1 < points.length ∧ e.2.1 < points.length ∧ e.2.2 = 1) ∧
    (find_triplets nn points.length max_nn).Nodup ∧
    (∀ i, ((find_triplets nn points.length max_nn).filter
        (fun e => decide (e.1 = i))).length ≤ max_nn) ∧
    (∀ e ∈ cliquePairs ((sortedIndices points origins).take
        (Nat.min max_nearby points.length)),
      e.2.1 < e.1 ∧ e.1 < points.length ∧ e.2.1 < points.length ∧ e.2.2 = 1) ∧
    (cliquePairs ((sortedIndices points origins).take
        (Nat.min max_nearby points.length))).Nodup ∧
    (all_triplets points origins max_nn max_nearby nn).Nodup := by
  have hfind : ∀ e ∈ find_triplets nn points.length max_nn,
      e.1 < e.2.1 ∧ e.1 < points.length ∧ e.2.1 < points.length ∧ e.2.2 = 1 := by
    intro e he
    obtain ⟨i, j, hi, rfl, hij, hj⟩ := mem_find_triplets he
    have hjn : j < points.length :=
      (hnn i (List.mem_range.mpr hi)).2 j hj
    exact ⟨hij, hi, hjn, rfl⟩
  have hfind_nodup : (find_triplets nn points.length max_nn).Nodup :=
    find_triplets_nodup (fun i hi => (hnn i hi).1)
  have hclique : ∀ e ∈ cliquePairs ((sortedIndices points origins).take
      (Nat.min max_nearby points.length)),
      e.2.1 < e.1 ∧ e.1 < points.length ∧ e.2.1 < points.length ∧ e.2.2 = 1 := by
    intro e he
    obtain ⟨h1, h2, h3, h4⟩ := mem_cliquePairs (sortedIndices_take_nodup points origins _) he
    exact ⟨h1, sortedIndices_take_lt h2, sortedIndices_take_lt h3, h4⟩
  have hclique_nodup : (cliquePairs ((sortedIndices points origins).take
      (Nat.min max_nearby points.length))).Nodup :=
    cliquePairs_nodup (sortedIndices_take_nodup points origins _)
  refine ⟨hfind, hfind_nodup, fun i => find_triplets_fanout i, hclique, hclique_nodup, ?_⟩
  unfold all_triplets
  refine List.Nodup.append hfind_nodup hclique_nodup ?_
  intro e hef hec
  have h1 := (hfind e hef).1
  have h2 := (hclique e hec).1
  omega

theorem c7_edge_invariants_witness :
    (all_triplets [((0:ℚ), 0, 0), (1, 0, 0)] [((0:ℚ), 0, 0)] 10 300
      (fun _ => [0, 1])).Nodup :=
  (c7_edge_invariants_amended [((0:ℚ), 0, 0), (1, 0, 0)] [((0:ℚ), 0, 0)] 10 300
    (fun _ => [0, 1]) (by decide)).2.2.2.2.2

/-- C7 (counterexample): with two points whose KD-tree queries return only the
query point itself, the triplet list consists of the single anchor-clique triplet
`(1, 0, 1)`, whose first index is the **larger** one — the claimed `i < j`
orientation fails for anchor-clique edges. -/
theorem c7_counterexample :
    all_triplets [((0:ℚ), 0, 0), (1, 0, 0)] [((0:ℚ), 0, 0)] 10 300
        (fun i => [i]) = [(1, 0, 1)] ∧
    ((all_triplets [((0:ℚ), 0, 0), (1, 0, 0)] [((0:ℚ), 0, 0)] 10 300
        (fun i => [i])).all (fun e => decide (e.1 < e.2.1))) = false := by
  constructor
  · decide
  · decide
